import Mathlib

/-!
Verification of the IRC session core (`src/ircsession.cpp`) of communi-desktop.

The development shallowly embeds the session engine:
* the line framer (`IrcSessionPrivate::_q_readData` / `readLines`),
* the command dispatcher (`IrcSessionPrivate::processLine`),
* the connection handshake (`IrcSessionPrivate::_q_connected`),
* the buffer registry (`IrcSession::addBuffer` and friends),
* the configuration setters and `IrcSession::open`.

Byte buffers are modelled as `List Char` (the stream is 8-bit clean in the
source; `QByteArray` operations used are index/left/mid/trimmed which are
byte-wise). `QString`s are modelled as Lean `String`s.
-/

set_option autoImplicit false

namespace IrcCore

/-- The carriage-return byte. -/
def cr : Char := '\r'

/-- The line-feed byte. -/
def lf : Char := '\n'

/-- ASCII whitespace as recognised by `QByteArray::trimmed`
(space, tab, line feed, vertical tab, form feed, carriage return). -/
def isQSpace (c : Char) : Bool :=
  c == ' ' || c == '\t' || c == '\n' || c == '\x0b' || c == '\x0c' || c == '\r'

/-- `QByteArray::trimmed`: strip ASCII whitespace from both ends. -/
def qTrimmed (l : List Char) : List Char :=
  ((l.dropWhile isQSpace).reverse.dropWhile isQSpace).reverse

/-- Does `l` start with the byte sequence `d`?  (`QByteArray` comparison at
offset 0, used to express `indexOf`.) -/
def startsWithSeq : List Char → List Char → Bool
  | [], _ => true
  | _ :: _, [] => false
  | d :: ds, c :: cs => d == c && startsWithSeq ds cs

/-- `QByteArray::indexOf(delimiter)`: position of the first occurrence of the
byte sequence `d` in `l`, `none` standing for the C++ return value `-1`. -/
def indexOfSeq (d : List Char) : List Char → Option Nat
  | [] => if startsWithSeq d [] then some 0 else none
  | c :: t =>
      if startsWithSeq d (c :: t) then some 0
      else (indexOfSeq d t).map (· + 1)

/-- Fuel-indexed version of `IrcSessionPrivate::readLines`: repeatedly find
the delimiter, split off the preceding span, trim it, keep it when non-empty.
The fuel only serves termination; `readLines` instantiates it with the buffer
length, which is always sufficient for a non-empty delimiter. -/
def readLinesFuel (d : List Char) : Nat → List Char → List (List Char) × List Char
  | 0, buf => ([], buf)
  | fuel + 1, buf =>
      match indexOfSeq d buf with
      | none => ([], buf)
      | some i =>
          let line := qTrimmed (buf.take i)
          let p := readLinesFuel d fuel (buf.drop (i + d.length))
          (if line = [] then p.1 else line :: p.1, p.2)

/-- `IrcSessionPrivate::readLines(delimiter)`: drain every `delimiter`-terminated
span from the buffer, yielding the trimmed non-empty spans in order together
with the remaining (un-terminated) bytes. -/
def readLines (d : List Char) (buf : List Char) : List (List Char) × List Char :=
  readLinesFuel d buf.length buf

/-- The strict RFC delimiter `"\r\n"`. -/
def crlf : List Char := [cr, lf]

/-- `IrcSessionPrivate::_q_readData`, with the newly received bytes made
explicit: append the chunk to the accumulator, drain `"\r\n"`-terminated lines
first, then drain bare-`"\n"`-terminated lines from what remains.  Returns the
framed lines (in emission order) and the new accumulator. -/
def feed (st chunk : List Char) : List (List Char) × List Char :=
  let buf := st ++ chunk
  let p1 := readLines crlf buf
  let p2 := readLines [lf] p1.2
  (p1.1 ++ p2.1, p2.2)

/-- Iterate `feed` over a list of chunks, starting from accumulator `st`,
collecting all framed lines in order. -/
def feedAll (st : List Char) : List (List Char) → List (List Char) × List Char
  | [] => ([], st)
  | c :: cs =>
      let p := feed st c
      let q := feedAll p.2 cs
      (p.1 ++ q.1, q.2)

/-- Concatenation of a chunk list into the underlying byte stream. -/
def concatChunks : List (List Char) → List Char
  | [] => []
  | c :: cs => c ++ concatChunks cs

/-- Helper for `noBareLF`: every `'\n'` in the list must be immediately
preceded by `'\r'`, where `prev` is the byte immediately before the list. -/
def noBareLFCont (prev : Char) : List Char → Bool
  | [] => true
  | c :: rest => (!(c == lf) || prev == cr) && noBareLFCont c rest

/-- A byte stream has no bare line feed: every `'\n'` is immediately preceded
by `'\r'` (the RFC-compliant framing discipline). -/
def noBareLF : List Char → Bool
  | [] => true
  | c :: rest => !(c == lf) && noBareLFCont c rest

-- scratch sanity checks (framing behaviour on concrete bytes)
example : (feed [] ("ab\r\ncd".data)).1 = ["ab".data] := by decide
example : (feed [] ("ab\r\ncd".data)).2 = "cd".data := by decide
example : (feedAll [] ["a\n".data, "b\r\n".data]).1 = ["a".data, "b".data] := by decide
example : (feed [] "a\nb\r\n".data).1 = ["a\nb".data] := by decide
example : noBareLF ("ab\r\ncd".data) = true := by decide
example : noBareLF ("ab\ncd".data) = false := by decide

/-! ### Lemmas about `startsWithSeq` and `indexOfSeq` -/

theorem startsWithSeq_iff (d l : List Char) :
    startsWithSeq d l = true ↔ ∃ t, l = d ++ t := by
  induction d generalizing l with
  | nil => simp [startsWithSeq]
  | cons a ds ih =>
    cases l with
    | nil =>
      simp only [startsWithSeq, Bool.false_eq_true, false_iff, not_exists]
      intro t ht
      exact List.cons_ne_nil a (ds ++ t) ht.symm
    | cons c cs =>
      simp only [startsWithSeq, Bool.and_eq_true, beq_iff_eq, ih, List.cons_append]
      constructor
      · rintro ⟨rfl, t, rfl⟩; exact ⟨t, rfl⟩
      · rintro ⟨t, ht⟩
        rw [List.cons.injEq] at ht
        exact ⟨ht.1.symm, t, ht.2⟩

theorem indexOfSeq_zero_of_starts {d l : List Char} (hs : startsWithSeq d l = true) :
    indexOfSeq d l = some 0 := by
  cases l with
  | nil => simp [indexOfSeq, hs]
  | cons a t => simp [indexOfSeq, hs]

theorem indexOfSeq_nil {d : List Char} (hd : d ≠ []) : indexOfSeq d [] = none := by
  cases d with
  | nil => exact absurd rfl hd
  | cons a ds => simp [indexOfSeq, startsWithSeq]

theorem indexOfSeq_bound {d l : List Char} {i : Nat} (h : indexOfSeq d l = some i) :
    i + d.length ≤ l.length := by
  induction l generalizing i with
  | nil =>
    by_cases hs : startsWithSeq d [] = true
    · obtain ⟨t, ht⟩ := (startsWithSeq_iff d []).1 hs
      have hd : d = [] := by
        cases d with
        | nil => rfl
        | cons a ds => exact absurd ht.symm (List.cons_ne_nil a (ds ++ t))
      simp only [indexOfSeq, hs, if_true, Option.some.injEq] at h
      simp [← h, hd]
    · simp only [indexOfSeq, hs, if_false] at h
      rw [Bool.not_eq_true] at hs
      simp [hs] at h
  | cons c t ih =>
    by_cases hs : startsWithSeq d (c :: t) = true
    · simp only [indexOfSeq, hs, if_true, Option.some.injEq] at h
      obtain ⟨u, hu⟩ := (startsWithSeq_iff d (c :: t)).1 hs
      subst h
      simp [hu]
    · rw [Bool.not_eq_true] at hs
      simp only [indexOfSeq, hs, Bool.false_eq_true, if_false, Option.map_eq_some'] at h
      obtain ⟨j, hj, hij⟩ := h
      subst hij
      have := ih hj
      simp only [List.length_cons]
      omega

theorem indexOfSeq_decomp {d l : List Char} {i : Nat} (h : indexOfSeq d l = some i) :
    ∃ u v, l = u ++ d ++ v ∧ u.length = i := by
  induction l generalizing i with
  | nil =>
    by_cases hs : startsWithSeq d [] = true
    · obtain ⟨t, ht⟩ := (startsWithSeq_iff d []).1 hs
      simp only [indexOfSeq, hs, if_true, Option.some.injEq] at h
      exact ⟨[], t, by simp [← ht], by simp [← h]⟩
    · rw [Bool.not_eq_true] at hs
      simp [indexOfSeq, hs] at h
  | cons c t ih =>
    by_cases hs : startsWithSeq d (c :: t) = true
    · obtain ⟨u, hu⟩ := (startsWithSeq_iff d (c :: t)).1 hs
      simp only [indexOfSeq, hs, if_true, Option.some.injEq] at h
      exact ⟨[], u, by simp [hu], by simp [← h]⟩
    · rw [Bool.not_eq_true] at hs
      simp only [indexOfSeq, hs, Bool.false_eq_true, if_false, Option.map_eq_some'] at h
      obtain ⟨j, hj, hij⟩ := h
      obtain ⟨u, v, huv, hlen⟩ := ih hj
      exact ⟨c :: u, v, by simp [huv], by simp [hlen, hij]⟩

theorem indexOfSeq_of_occurrence (d u v : List Char) :
    indexOfSeq d (u ++ d ++ v) ≠ none := by
  induction u with
  | nil =>
    rw [List.nil_append,
      indexOfSeq_zero_of_starts ((startsWithSeq_iff d (d ++ v)).2 ⟨v, rfl⟩)]
    simp
  | cons a u' ih =>
    simp only [List.cons_append, List.append_assoc] at ih ⊢
    by_cases hs : startsWithSeq d (a :: (u' ++ (d ++ v))) = true
    · simp [indexOfSeq, hs]
    · rw [Bool.not_eq_true] at hs
      simp only [indexOfSeq, hs, Bool.false_eq_true, if_false, ne_eq, Option.map_eq_none']
      exact ih

theorem startsWithSeq_false_append {d l : List Char} (y : List Char)
    (h : startsWithSeq d l = false) (hlen : d.length ≤ l.length) :
    startsWithSeq d (l ++ y) = false := by
  by_contra hc
  rw [Bool.not_eq_false] at hc
  obtain ⟨t, ht⟩ := (startsWithSeq_iff d (l ++ y)).1 hc
  have htake : (l ++ y).take d.length = d := by
    rw [ht]; exact List.take_left' rfl
  rw [List.take_append_of_le_length hlen] at htake
  have : startsWithSeq d l = true :=
    (startsWithSeq_iff d l).2 ⟨l.drop d.length, by
      conv_lhs => rw [← List.take_append_drop d.length l]
      rw [htake]⟩
  simp [this] at h

theorem indexOfSeq_append_some {d l : List Char} (y : List Char) {i : Nat}
    (h : indexOfSeq d l = some i) : indexOfSeq d (l ++ y) = some i := by
  induction l generalizing i with
  | nil =>
    by_cases hs : startsWithSeq d [] = true
    · obtain ⟨t, ht⟩ := (startsWithSeq_iff d []).1 hs
      have hd : d = [] := by
        cases d with
        | nil => rfl
        | cons a ds => exact absurd ht.symm (List.cons_ne_nil a (ds ++ t))
      subst hd
      simp only [indexOfSeq, hs, if_true, Option.some.injEq] at h
      have hsy : startsWithSeq ([] : List Char) y = true := by cases y <;> rfl
      rw [List.nil_append, indexOfSeq_zero_of_starts hsy]
      simp [← h]
    · rw [Bool.not_eq_true] at hs
      simp [indexOfSeq, hs] at h
  | cons c t ih =>
    by_cases hs : startsWithSeq d (c :: t) = true
    · simp only [indexOfSeq, hs, if_true, Option.some.injEq] at h
      obtain ⟨u, hu⟩ := (startsWithSeq_iff d (c :: t)).1 hs
      have hs' : startsWithSeq d (c :: (t ++ y)) = true :=
        (startsWithSeq_iff d (c :: (t ++ y))).2
          ⟨u ++ y, by rw [← List.cons_append, hu, List.append_assoc]⟩
      simp [indexOfSeq, hs', ← h]
    · rw [Bool.not_eq_true] at hs
      simp only [indexOfSeq, hs, Bool.false_eq_true, if_false, Option.map_eq_some'] at h
      obtain ⟨j, hj, hij⟩ := h
      have hdlen : d.length ≤ (c :: t).length := by
        have := indexOfSeq_bound hj
        simp only [List.length_cons]
        omega
      have hs' := startsWithSeq_false_append y hs hdlen
      rw [List.cons_append] at hs'
      simp only [List.cons_append, indexOfSeq, List.append_eq, hs', Bool.false_eq_true,
        if_false, Option.map_eq_some']
      exact ⟨j, ih hj, hij⟩

theorem indexOfSeq_singleton_none {c : Char} {l : List Char} :
    indexOfSeq [c] l = none ↔ c ∉ l := by
  induction l with
  | nil => simp [indexOfSeq, startsWithSeq]
  | cons a t ih =>
    by_cases hca : c = a
    · subst hca
      have hs : startsWithSeq [c] (c :: t) = true := by simp [startsWithSeq]
      simp [indexOfSeq, hs]
    · have hs : startsWithSeq [c] (a :: t) = false := by
        simp [startsWithSeq, hca]
      simp [indexOfSeq, hs, Option.map_eq_none', ih, hca]

/-! ### Lemmas about `readLines` -/

theorem length_pos_of_ne_nil {d : List Char} (hd : d ≠ []) : 1 ≤ d.length := by
  cases d with
  | nil => exact absurd rfl hd
  | cons a ds => simp

theorem readLinesFuel_irrel {d : List Char} (hd : d ≠ []) :
    ∀ (f1 f2 : Nat) (buf : List Char), buf.length ≤ f1 → buf.length ≤ f2 →
      readLinesFuel d f1 buf = readLinesFuel d f2 buf := by
  intro f1
  induction f1 with
  | zero =>
    intro f2 buf h1 _
    have hb : buf = [] := List.length_eq_zero.1 (Nat.le_zero.1 h1)
    subst hb
    cases f2 with
    | zero => rfl
    | succ f2 => simp [readLinesFuel, indexOfSeq_nil hd]
  | succ f1 ih =>
    intro f2 buf h1 h2
    cases f2 with
    | zero =>
      have hb : buf = [] := List.length_eq_zero.1 (Nat.le_zero.1 h2)
      subst hb
      simp [readLinesFuel, indexOfSeq_nil hd]
    | succ f2 =>
      rw [readLinesFuel, readLinesFuel]
      cases hidx : indexOfSeq d buf with
      | none => rfl
      | some i =>
        have hbound := indexOfSeq_bound hidx
        have hdpos := length_pos_of_ne_nil hd
        have hrest1 : (buf.drop (i + d.length)).length ≤ f1 := by
          simp only [List.length_drop]; omega
        have hrest2 : (buf.drop (i + d.length)).length ≤ f2 := by
          simp only [List.length_drop]; omega
        simp only [ih f2 _ hrest1 hrest2]

theorem readLinesFuel_eq_readLines {d : List Char} (hd : d ≠ []) {fuel : Nat}
    {buf : List Char} (hf : buf.length ≤ fuel) :
    readLinesFuel d fuel buf = readLines d buf :=
  readLinesFuel_irrel hd fuel buf.length buf hf (Nat.le_refl _)

theorem readLines_eq_none {d buf : List Char} (h : indexOfSeq d buf = none) :
    readLines d buf = ([], buf) := by
  cases buf with
  | nil => rfl
  | cons c t => simp [readLines, readLinesFuel, h]

theorem readLines_eq_some {d : List Char} (hd : d ≠ []) {buf : List Char} {i : Nat}
    (h : indexOfSeq d buf = some i) :
    readLines d buf =
      (if qTrimmed (buf.take i) = [] then (readLines d (buf.drop (i + d.length))).1
       else qTrimmed (buf.take i) :: (readLines d (buf.drop (i + d.length))).1,
       (readLines d (buf.drop (i + d.length))).2) := by
  have hbound := indexOfSeq_bound h
  have hdpos := length_pos_of_ne_nil hd
  cases buf with
  | nil => rw [indexOfSeq_nil hd] at h; cases h
  | cons c t =>
    have hrest : ((c :: t).drop (i + d.length)).length ≤ t.length := by
      simp only [List.length_drop, List.length_cons] at *
      omega
    rw [readLines]
    simp only [List.length_cons, readLinesFuel, h]
    rw [readLinesFuel_eq_readLines hd hrest]

theorem readLines_append_aux {d : List Char} (hd : d ≠ []) :
    ∀ (n : Nat) (x y : List Char), x.length ≤ n →
      readLines d (x ++ y) =
        ((readLines d x).1 ++ (readLines d ((readLines d x).2 ++ y)).1,
         (readLines d ((readLines d x).2 ++ y)).2) := by
  intro n
  induction n with
  | zero =>
    intro x y h
    have hx : x = [] := List.length_eq_zero.1 (Nat.le_zero.1 h)
    subst hx
    have h0 : readLines d ([] : List Char) = ([], []) := rfl
    rw [List.nil_append, h0]
    simp
  | succ n ih =>
    intro x y hlen
    cases hidx : indexOfSeq d x with
    | none =>
      rw [readLines_eq_none hidx]
      simp
    | some i =>
      have hbound := indexOfSeq_bound hidx
      have hdpos := length_pos_of_ne_nil hd
      have hixy : indexOfSeq d (x ++ y) = some i := indexOfSeq_append_some y hidx
      rw [readLines_eq_some hd hidx, readLines_eq_some hd hixy]
      have htake : (x ++ y).take i = x.take i :=
        List.take_append_of_le_length (by omega)
      have hdrop : (x ++ y).drop (i + d.length) = x.drop (i + d.length) ++ y :=
        List.drop_append_of_le_length (by omega)
      rw [htake, hdrop]
      rw [ih (x.drop (i + d.length)) y (by simp only [List.length_drop]; omega)]
      by_cases hline : qTrimmed (x.take i) = []
      · simp [hline]
      · simp [hline]

theorem readLines_append {d : List Char} (hd : d ≠ []) (x y : List Char) :
    readLines d (x ++ y) =
      ((readLines d x).1 ++ (readLines d ((readLines d x).2 ++ y)).1,
       (readLines d ((readLines d x).2 ++ y)).2) :=
  readLines_append_aux hd x.length x y (Nat.le_refl _)

theorem readLines_rem_no_delim_aux {d : List Char} (hd : d ≠ []) :
    ∀ (n : Nat) (buf : List Char), buf.length ≤ n →
      indexOfSeq d (readLines d buf).2 = none := by
  intro n
  induction n with
  | zero =>
    intro buf h
    have hb : buf = [] := List.length_eq_zero.1 (Nat.le_zero.1 h)
    subst hb
    exact indexOfSeq_nil hd
  | succ n ih =>
    intro buf hlen
    cases hidx : indexOfSeq d buf with
    | none => rw [readLines_eq_none hidx]; exact hidx
    | some i =>
      have hbound := indexOfSeq_bound hidx
      have hdpos := length_pos_of_ne_nil hd
      rw [readLines_eq_some hd hidx]
      exact ih (buf.drop (i + d.length)) (by simp only [List.length_drop]; omega)

theorem readLines_rem_no_delim {d : List Char} (hd : d ≠ []) (buf : List Char) :
    indexOfSeq d (readLines d buf).2 = none :=
  readLines_rem_no_delim_aux hd buf.length buf (Nat.le_refl _)

theorem readLines_consumed_aux {d : List Char} (hd : d ≠ []) :
    ∀ (n : Nat) (buf : List Char), buf.length ≤ n →
      ∃ c, buf = c ++ (readLines d buf).2 ∧ (c = [] ∨ ∃ c2, c = c2 ++ d) := by
  intro n
  induction n with
  | zero =>
    intro buf h
    have hb : buf = [] := List.length_eq_zero.1 (Nat.le_zero.1 h)
    subst hb
    exact ⟨[], rfl, Or.inl rfl⟩
  | succ n ih =>
    intro buf hlen
    cases hidx : indexOfSeq d buf with
    | none => exact ⟨[], by rw [readLines_eq_none hidx]; simp, Or.inl rfl⟩
    | some i =>
      have hbound := indexOfSeq_bound hidx
      have hdpos := length_pos_of_ne_nil hd
      obtain ⟨u, v, huv, hulen⟩ := indexOfSeq_decomp hidx
      have hv : buf.drop (i + d.length) = v := by
        rw [huv]
        exact List.drop_left' (by simp [hulen])
      obtain ⟨c, hc, hcend⟩ :=
        ih (buf.drop (i + d.length)) (by simp only [List.length_drop]; omega)
      refine ⟨u ++ d ++ c, ?_, ?_⟩
      · rw [readLines_eq_some hd hidx]
        have : buf.drop (i + d.length) = c ++ (readLines d (buf.drop (i + d.length))).2 := hc
        calc buf = u ++ d ++ v := huv
        _ = u ++ d ++ (c ++ (readLines d (buf.drop (i + d.length))).2) := by rw [← hv, ← this]
        _ = u ++ d ++ c ++ (readLines d (buf.drop (i + d.length))).2 := by
              simp [List.append_assoc]
      · rcases hcend with hc0 | ⟨c2, hc2⟩
        · exact Or.inr ⟨u, by rw [hc0, List.append_nil]⟩
        · exact Or.inr ⟨u ++ d ++ c2, by rw [hc2]; simp [List.append_assoc]⟩

theorem readLines_consumed {d : List Char} (hd : d ≠ []) (buf : List Char) :
    ∃ c, buf = c ++ (readLines d buf).2 ∧ (c = [] ∨ ∃ c2, c = c2 ++ d) :=
  readLines_consumed_aux hd buf.length buf (Nat.le_refl _)

/-! ### Lemmas about `noBareLF` -/

theorem noBareLFCont_append_left {p : Char} {x y : List Char}
    (h : noBareLFCont p (x ++ y) = true) : noBareLFCont p x = true := by
  induction x generalizing p with
  | nil => rfl
  | cons c x' ih =>
    simp only [List.cons_append, noBareLFCont, Bool.and_eq_true] at h ⊢
    exact ⟨h.1, ih h.2⟩

theorem noBareLF_append_left {x y : List Char} (h : noBareLF (x ++ y) = true) :
    noBareLF x = true := by
  cases x with
  | nil => rfl
  | cons c x' =>
    simp only [List.cons_append, noBareLF, Bool.and_eq_true] at h ⊢
    exact ⟨h.1, noBareLFCont_append_left h.2⟩

theorem noBareLFCont_decomp {p : Char} {l u v : List Char}
    (h : noBareLFCont p l = true) (he : l = u ++ lf :: v) :
    (u = [] ∧ p = cr) ∨ ∃ u2, u = u2 ++ [cr] := by
  induction u generalizing l p with
  | nil =>
    subst he
    simp only [List.nil_append, noBareLFCont, Bool.and_eq_true, Bool.or_eq_true,
      Bool.not_eq_true', beq_iff_eq, beq_self_eq_true] at h
    rcases h.1 with h1 | h1
    · exact absurd h1 (by decide)
    · exact Or.inl ⟨rfl, h1⟩
  | cons a u' ih =>
    subst he
    simp only [List.cons_append, noBareLFCont, Bool.and_eq_true] at h
    rcases ih h.2 rfl with ⟨hu0, hp⟩ | ⟨u2, hu2⟩
    · subst hu0 hp
      exact Or.inr ⟨[], rfl⟩
    · exact Or.inr ⟨a :: u2, by rw [hu2, List.cons_append]⟩

theorem noBareLF_decomp {l u v : List Char} (h : noBareLF l = true)
    (he : l = u ++ lf :: v) : ∃ u2, u = u2 ++ [cr] := by
  cases u with
  | nil =>
    subst he
    simp [noBareLF, lf] at h
  | cons a u' =>
    subst he
    simp only [List.cons_append, noBareLF, Bool.and_eq_true] at h
    rcases noBareLFCont_decomp h.2 rfl with ⟨hu0, hp⟩ | ⟨u2, hu2⟩
    · subst hu0 hp
      exact ⟨[], rfl⟩
    · exact ⟨a :: u2, by rw [hu2, List.cons_append]⟩

/-! ### The framing passes under the no-bare-LF discipline -/

/-- The two delimiters are non-empty. -/
theorem crlf_ne_nil : crlf ≠ [] := by simp [crlf]

theorem lfd_ne_nil : [lf] ≠ [] := by simp

/-- After the strict `"\r\n"` pass over a stream with no bare line feed,
the remainder contains no `'\n'` at all. -/
theorem readLines_crlf_rem_no_lf {w : List Char} (h : noBareLF w = true) :
    lf ∉ (readLines crlf w).2 := by
  intro hmem
  obtain ⟨u, v, huv⟩ := List.append_of_mem hmem
  obtain ⟨c, hc, hcend⟩ := readLines_consumed crlf_ne_nil w
  have hw : w = (c ++ u) ++ lf :: v := by
    rw [hc, huv, List.append_assoc]
  obtain ⟨u2, hu2⟩ := noBareLF_decomp h hw
  cases u with
  | nil =>
    rw [List.append_nil] at hu2
    rcases hcend with hc0 | ⟨c2, hc2⟩
    · subst hc0
      exact List.cons_ne_nil cr [] (by simpa using hu2.symm)
    · have h1 : c.getLast? = some lf := by
        rw [hc2]
        show (c2 ++ [cr, lf]).getLast? = some lf
        rw [show c2 ++ [cr, lf] = (c2 ++ [cr]) ++ [lf] by simp [crlf], List.getLast?_concat]
      have h2 : c.getLast? = some cr := by rw [hu2, List.getLast?_concat]
      rw [h1] at h2
      simp [lf, cr] at h2
  | cons a u' =>
    have h1 : (c ++ a :: u').getLast? = some cr := by rw [hu2, List.getLast?_concat]
    obtain ⟨z, hz⟩ : ∃ z, (a :: u').getLast? = some z :=
      ⟨(a :: u').getLast (by simp), List.getLast?_eq_getLast _ (by simp)⟩
    rw [List.getLast?_append, hz, Option.or_some] at h1
    obtain ⟨u3, hu3⟩ := List.getLast?_eq_some_iff.1 (hz.trans h1)
    have hocc : (readLines crlf w).2 = u3 ++ crlf ++ v := by
      rw [huv, hu3]
      simp [crlf, List.append_assoc]
    exact indexOfSeq_of_occurrence crlf u3 v
      (hocc ▸ readLines_rem_no_delim crlf_ne_nil w)

/-- The bare-`"\n"` pass does nothing on a buffer without `'\n'`. -/
theorem readLines_lf_of_no_lf {b : List Char} (h : lf ∉ b) :
    readLines [lf] b = ([], b) :=
  readLines_eq_none (indexOfSeq_singleton_none.2 h)

/-- On a stream with no bare line feed, a single feed is exactly the strict
CRLF pass. -/
theorem feed_eq_readLines_crlf {w : List Char} (h : noBareLF w = true) :
    feed [] w = readLines crlf w := by
  show (let buf := [] ++ w
        let p1 := readLines crlf buf
        let p2 := readLines [lf] p1.2
        (p1.1 ++ p2.1, p2.2)) = readLines crlf w
  simp only [List.nil_append]
  rw [readLines_lf_of_no_lf (readLines_crlf_rem_no_lf h)]
  simp

theorem feedAll_eq_aux :
    ∀ (chunks : List (List Char)) (w : List Char),
      noBareLF (w ++ concatChunks chunks) = true →
      (readLines crlf w).1 ++ (feedAll (readLines crlf w).2 chunks).1
          = (readLines crlf (w ++ concatChunks chunks)).1 ∧
        (feedAll (readLines crlf w).2 chunks).2
          = (readLines crlf (w ++ concatChunks chunks)).2 := by
  intro chunks
  induction chunks with
  | nil =>
    intro w _
    simp [feedAll, concatChunks]
  | cons c cs ih =>
    intro w h
    have hassoc : w ++ concatChunks (c :: cs) = (w ++ c) ++ concatChunks cs := by
      show w ++ (c ++ concatChunks cs) = (w ++ c) ++ concatChunks cs
      rw [List.append_assoc]
    have hwc : noBareLF (w ++ c) = true :=
      noBareLF_append_left (by rw [← hassoc]; exact h)
    have hsplit := readLines_append crlf_ne_nil w c
    have hnolf : lf ∉ (readLines crlf ((readLines crlf w).2 ++ c)).2 := by
      have := readLines_crlf_rem_no_lf hwc
      rw [hsplit] at this
      exact this
    have hfeed : feed (readLines crlf w).2 c
        = readLines crlf ((readLines crlf w).2 ++ c) := by
      show (let buf := (readLines crlf w).2 ++ c
            let p1 := readLines crlf buf
            let p2 := readLines [lf] p1.2
            (p1.1 ++ p2.1, p2.2)) = readLines crlf ((readLines crlf w).2 ++ c)
      simp only
      rw [readLines_lf_of_no_lf hnolf]
      simp
    have ihspec := ih (w ++ c) (by rw [← hassoc]; exact h)
    constructor
    · show (readLines crlf w).1 ++
        ((feed (readLines crlf w).2 c).1 ++
          (feedAll (feed (readLines crlf w).2 c).2 cs).1)
        = (readLines crlf (w ++ concatChunks (c :: cs))).1
      rw [hassoc, hfeed, ← List.append_assoc]
      have hfst : (readLines crlf w).1 ++ (readLines crlf ((readLines crlf w).2 ++ c)).1
          = (readLines crlf (w ++ c)).1 := by rw [hsplit]
      have hsnd : (readLines crlf ((readLines crlf w).2 ++ c)).2
          = (readLines crlf (w ++ c)).2 := by rw [hsplit]
      rw [hfst, hsnd]
      exact ihspec.1
    · show (feedAll (feed (readLines crlf w).2 c).2 cs).2
        = (readLines crlf (w ++ concatChunks (c :: cs))).2
      rw [hassoc, hfeed]
      have hsnd : (readLines crlf ((readLines crlf w).2 ++ c)).2
          = (readLines crlf (w ++ c)).2 := by rw [hsplit]
      rw [hsnd]
      exact ihspec.2

/-- Chunk-boundary invariance of the framer for streams with no bare `'\n'`:
feeding the chunks one by one yields the same framed lines (and the same
final accumulator) as feeding the concatenated stream at once. -/
theorem feedAll_eq_feed_concat {chunks : List (List Char)}
    (h : noBareLF (concatChunks chunks) = true) :
    (feedAll [] chunks).1 = (feed [] (concatChunks chunks)).1 ∧
      (feedAll [] chunks).2 = (feed [] (concatChunks chunks)).2 := by
  have h0 : readLines crlf ([] : List Char) = ([], []) := rfl
  have := feedAll_eq_aux chunks [] (by rwa [List.nil_append])
  rw [h0, List.nil_append] at this
  rw [feed_eq_readLines_crlf h]
  simpa using this

/-! ### The message model and command dispatcher (`IrcSessionPrivate::processLine`) -/

/-- The kinds of typed messages the dispatcher can construct
(`IrcNumericMessage`, `IrcJoinMessage`, ... in the source). -/
inductive MsgKind where
  | numeric (code : Nat)
  | join
  | part
  | topic
  | names
  | list
  | invite
  | kick
  | channelMode
  | userMode
  | ctcpAction
  | ctcpRequest
  | privMsg
  | ctcpReply
  | notice
  | who
  | whois
  | whowas
deriving DecidableEq

/-- Session-level events (Qt signals emitted by `IrcSession`). -/
inductive SessionEv where
  | connecting
  | connected
  | disconnected
  | messageReceived (k : MsgKind)
  | bufferAdded (b : Nat)
deriving DecidableEq

/-- `QString::startsWith` for our purposes: `qStartsWith s t` is true when
string `s` begins with `t`. -/
def qStartsWith (s t : String) : Bool := startsWithSeq t.data s.data

/-- Largest `int` value (`QString::toInt` converts into a C++ 32-bit int). -/
def int32Max : Int := 2147483647

/-- Smallest `int` value. -/
def int32Min : Int := -2147483648

/-- Accumulating base-10 digit parser: `some` exactly when every character is
a decimal digit. -/
def digitsValGo (acc : Nat) : List Char → Option Nat
  | [] => some acc
  | c :: t => if c.isDigit then digitsValGo (acc * 10 + (c.toNat - 48)) t else none

/-- `QString::toInt(bool* ok)` in base 10: surrounding ASCII whitespace is
ignored, an optional single leading `+`/`-` sign is accepted, the rest must be
decimal digits, and the value must fit a 32-bit signed int; `none` models
`*ok == false`. -/
def qtToInt (s : String) : Option Int :=
  match qTrimmed s.data with
  | '+' :: ds =>
      if ds = [] then none
      else (digitsValGo 0 ds).bind fun n =>
        if (n : Int) ≤ int32Max then some (n : Int) else none
  | '-' :: ds =>
      if ds = [] then none
      else (digitsValGo 0 ds).bind fun n =>
        if int32Min ≤ -(n : Int) then some (-(n : Int)) else none
  | ds =>
      if ds = [] then none
      else (digitsValGo 0 ds).bind fun n =>
        if (n : Int) ≤ int32Max then some (n : Int) else none

/-- The implicit conversion `uint code = command.toInt(...)`: reduction of the
signed value modulo `2^32`. -/
def uintCast (v : Int) : Nat := (v % (2 ^ 32 : Int)).toNat

/-- Modelled from the spec: the "welcome" numeric reply code
(`Irc::RPL_WELCOME`, declared in `ircglobal.h`, which is not under `src/`);
its concrete value is the standard IRC numeric 001. -/
def RPL_WELCOME : Nat := 1

/-- The serialisation of one `PONG` reply as performed by
`IrcSessionPrivate::raw` (which appends `"\r\n"` to the UTF-8 text). -/
def pongLine (arg : String) : String := "PONG " ++ arg ++ "\r\n"

/-- The textual-command `else if` chain of `IrcSessionPrivate::processLine`:
given a non-numeric command token and the parameter list, returns the typed
message to emit (if any) and the raw writes performed (only `PING` writes).
`params.getD i \"\"` models `params.value(i)`, whose default is a null
`QString`. -/
def textualDispatch (cmd : String) (params : List String) : Option MsgKind × List String :=
  if cmd = "PING" then
    (none, [pongLine (params.getD 0 "")])
  else if cmd = "JOIN" then (some MsgKind.join, [])
  else if cmd = "PART" then (some MsgKind.part, [])
  else if cmd = "TOPIC" then (some MsgKind.topic, [])
  else if cmd = "NAMES" then (some MsgKind.names, [])
  else if cmd = "LIST" then (some MsgKind.list, [])
  else if cmd = "INVITE" then (some MsgKind.invite, [])
  else if cmd = "KICK" then (some MsgKind.kick, [])
  else if cmd = "MODE" then
    (some (if qStartsWith (params.getD 0 "") "#" then MsgKind.channelMode
           else MsgKind.userMode), [])
  else if cmd = "PRIVMSG" then
    (some (if qStartsWith (params.getD 1 "") "\x01ACTION " then MsgKind.ctcpAction
           else if qStartsWith (params.getD 1 "") "\x01" then MsgKind.ctcpRequest
           else MsgKind.privMsg), [])
  else if cmd = "NOTICE" then
    (some (if qStartsWith (params.getD 1 "") "\x01" then MsgKind.ctcpReply
           else MsgKind.notice), [])
  else if cmd = "WHO" then (some MsgKind.who, [])
  else if cmd = "WHOIS" then (some MsgKind.whois, [])
  else if cmd = "WHOWAS" then (some MsgKind.whowas, [])
  else (none, [])

/-- `IrcSessionPrivate::processLine`, after the external `IrcParser` has split
the line into prefix, command and params: returns the session events emitted
(in order) and the socket writes performed.  The numeric test
(`command.toInt(&isNumeric)`) comes first and shadows every textual match;
`processLine` touches no session state. -/
def processLine (pfx cmd : String) (params : List String) :
    List SessionEv × List String :=
  match qtToInt cmd with
  | some v =>
      ((if uintCast v = RPL_WELCOME then [SessionEv.connected] else []) ++
        [SessionEv.messageReceived (MsgKind.numeric (uintCast v))], [])
  | none =>
      let td := textualDispatch cmd params
      ((match td.1 with
        | some k => [SessionEv.messageReceived k]
        | none => []), td.2)

/-- Process a sequence of already-parsed lines, concatenating the emitted
events and writes in order. -/
def processMany : List (String × String × List String) → List SessionEv × List String
  | [] => ([], [])
  | l :: ls =>
      let p := processLine l.1 l.2.1 l.2.2
      let q := processMany ls
      (p.1 ++ q.1, p.2 ++ q.2)

/-- Number of `connected` emissions in an event list. -/
def countConnected (evs : List SessionEv) : Nat :=
  evs.countP (fun e => e == SessionEv.connected)

/-- Is a parsed line a welcome numeric (numeric classification with code
`RPL_WELCOME`)? -/
def isWelcomeLine (l : String × String × List String) : Bool :=
  match qtToInt l.2.1 with
  | some v => uintCast v == RPL_WELCOME
  | none => false

/-- Number of welcome-numeric lines in a parsed-line list. -/
def countWelcome (ls : List (String × String × List String)) : Nat :=
  ls.countP isWelcomeLine

-- scratch checks of the dispatcher
example : processLine "" "PING" ["abc"] = ([], ["PONG abc\r\n"]) := by decide
example : processLine "x" "001" ["n"] =
    ([SessionEv.connected, SessionEv.messageReceived (MsgKind.numeric 1)], []) := by decide
example : processLine "x" "372" ["n"] =
    ([SessionEv.messageReceived (MsgKind.numeric 372)], []) := by decide
example : (processLine "" "2147483648" []).1 = [] := by decide
example : (processLine "" "-1" []).1 =
    [SessionEv.messageReceived (MsgKind.numeric 4294967295)] := by decide
example : (processLine "" "JOIN" ["#ch"]).1 = [SessionEv.messageReceived MsgKind.join] := by
  decide

/-! ### The session state (`IrcSessionPrivate`) -/

/-- The subset of `QAbstractSocket` states the session logic inspects
(`isConnected` checks `ConnectingState`/`ConnectedState`). -/
inductive SocketState where
  | unconnected
  | connecting
  | connected
deriving DecidableEq

/-- The state of one `IrcSession`/`IrcSessionPrivate` pair.  Buffer instances
(`IrcBuffer*` pointers produced by `IrcSession::createBuffer`) are modelled by
allocation numbers: `nextId` is the next fresh instance and `allocated`
records every created instance with its pattern.  `buffers` is the
`QMultiHash<QString, IrcBuffer*>` member as a most-recent-first association
list (the source calls the two-argument `QMultiHash::remove(key, value)` on
it, and `QMultiHash::insert` always adds a new entry). -/
structure IrcSessionState where
  host : String
  port : Nat
  userName : String
  nickName : String
  realName : String
  socketState : SocketState
  hasSocket : Bool
  mainBuffer : Option Nat
  buffers : List (String × Nat)
  nextId : Nat
  allocated : List (Nat × String)
  rawBuf : List Char
deriving DecidableEq

/-- The state made by the `IrcSession` constructor: empty configuration,
port 6667 (from `IrcSessionPrivate::IrcSessionPrivate`), a fresh
`QTcpSocket` installed by `setSocket(new QTcpSocket(this))`. -/
def initSession : IrcSessionState :=
  { host := ""
    port := 6667
    userName := ""
    nickName := ""
    realName := ""
    socketState := SocketState.unconnected
    hasSocket := true
    mainBuffer := none
    buffers := []
    nextId := 0
    allocated := []
    rawBuf := [] }

/-- `IrcSessionPrivate::isConnected`: a socket exists and is in the
connecting or connected state. -/
def isConnectedB (st : IrcSessionState) : Bool :=
  st.hasSocket &&
    (st.socketState == SocketState.connecting || st.socketState == SocketState.connected)

/-- `IrcSession::createBuffer(pattern)`: the virtual factory
`new IrcBuffer(pattern, this)` — allocates a fresh buffer instance. -/
def createBuffer (st : IrcSessionState) (pattern : String) : IrcSessionState × Nat :=
  ({ st with
      nextId := st.nextId + 1
      allocated := (st.nextId, pattern) :: st.allocated }, st.nextId)

/-- `IrcSession::addBuffer(pattern)`: always creates a fresh buffer via the
factory and inserts it under the verbatim pattern key; the live code emits no
creation event (the third component is the emitted event list). -/
def addBuffer (st : IrcSessionState) (pattern : String) :
    IrcSessionState × Nat × List SessionEv :=
  let p := createBuffer st pattern
  ({ p.1 with buffers := (pattern, p.2) :: p.1.buffers }, p.2, [])

/-- `IrcSession::buffer(pattern)`: `d->buffers.value(pattern)` — the most
recently inserted buffer under the exact key, `none` modelling the null
pointer. -/
def bufferLookup (st : IrcSessionState) (pattern : String) : Option Nat :=
  (st.buffers.find? (fun kv => kv.1 == pattern)).map (fun kv => kv.2)

/-- Case-folded key as used by the spec's Buffer Registry description
(`QString::toLower` on ASCII patterns). -/
def lowerKey (s : String) : String :=
  String.mk (s.data.map (fun c => c.toLower))

/-- `IrcSession::setHost`: warns when connected (returned boolean), then
unconditionally stores the new value. -/
def setHost (st : IrcSessionState) (v : String) : IrcSessionState × Bool :=
  ({ st with host := v }, isConnectedB st)

/-- `IrcSession::setPort`. -/
def setPort (st : IrcSessionState) (v : Nat) : IrcSessionState × Bool :=
  ({ st with port := v }, isConnectedB st)

/-- `IrcSession::setUserName`. -/
def setUserName (st : IrcSessionState) (v : String) : IrcSessionState × Bool :=
  ({ st with userName := v }, isConnectedB st)

/-- `IrcSession::setNickName` (no warning; assigns only when different,
which is observationally the plain assignment). -/
def setNickName (st : IrcSessionState) (v : String) : IrcSessionState :=
  { st with nickName := v }

/-- `IrcSession::setRealName`. -/
def setRealName (st : IrcSessionState) (v : String) : IrcSessionState × Bool :=
  ({ st with realName := v }, isConnectedB st)

/-- Outputs of one event step: emitted signals, socket writes,
`connectToHost` calls, and `qCritical` configuration errors. -/
structure StepOut where
  events : List SessionEv
  writes : List String
  connects : List (String × Nat)
  errors : List String
deriving DecidableEq

/-- The empty output. -/
def emptyOut : StepOut := ⟨[], [], [], []⟩

/-- Concatenate outputs of successive steps. -/
def appendOut (a b : StepOut) : StepOut :=
  ⟨a.events ++ b.events, a.writes ++ b.writes, a.connects ++ b.connects,
    a.errors ++ b.errors⟩

/-- `IrcSessionPrivate::_q_reconnect`: if a socket exists, ask the transport
to connect to (host, port). -/
def reconnect (st : IrcSessionState) : IrcSessionState × StepOut :=
  if st.hasSocket then
    ({ st with socketState := SocketState.connecting },
      ⟨[], [], [(st.host, st.port)], []⟩)
  else (st, emptyOut)

/-- `IrcSession::open`: refuse with a synchronous `qCritical` when the user
name, nick name or real name is empty; otherwise reconnect. -/
def openSession (st : IrcSessionState) : IrcSessionState × StepOut :=
  if st.userName = "" then
    (st, ⟨[], [], [], ["IrcSession::open(): userName is empty!"]⟩)
  else if st.nickName = "" then
    (st, ⟨[], [], [], ["IrcSession::open(): nickName is empty!"]⟩)
  else if st.realName = "" then
    (st, ⟨[], [], [], ["IrcSession::open(): realName is empty!"]⟩)
  else reconnect st

/-- `IrcSessionPrivate::_q_connected`, the slot run when the transport
reports an established connection (with the synchronously solicited password
made an explicit argument): emit `connecting`, write `PASS` (only when the
password is non-empty) then `NICK` then `USER`, and install a freshly created
`"*"` buffer as the main buffer. -/
def connectedHandler (st : IrcSessionState) (password : String) :
    IrcSessionState × StepOut :=
  let writes :=
    (if password = "" then [] else ["PASS " ++ password ++ "\r\n"]) ++
      ["NICK " ++ st.nickName ++ "\r\n",
       "USER " ++ st.userName ++ " unknown unknown :" ++ st.realName ++ "\r\n"]
  let p := createBuffer { st with socketState := SocketState.connected } "*"
  ({ p.1 with mainBuffer := some p.2 },
    ⟨[SessionEv.connecting], writes, [], []⟩)

/-- `IrcSessionPrivate::_q_disconnected`. -/
def disconnectedHandler (st : IrcSessionState) : IrcSessionState × StepOut :=
  ({ st with socketState := SocketState.unconnected },
    ⟨[SessionEv.disconnected], [], [], []⟩)

/-! ### Line parsing (spec-modelled) and the event step machine -/

/-- Drop leading spaces. -/
def dropSpaces (l : List Char) : List Char := l.dropWhile (fun c => c == ' ')

/-- The span up to the first space. -/
def takeToSpace (l : List Char) : List Char := l.takeWhile (fun c => !(c == ' '))

/-- The span from the first space on. -/
def dropToSpace (l : List Char) : List Char := l.dropWhile (fun c => !(c == ' '))

/-- Space-separated parameter splitting with the `:`-trailing rule: a
parameter beginning with `:` consumes the rest of the line verbatim.
`cur` is the reversed current word. -/
def paramsGo : List Char → List Char → List String
  | cur, [] => if cur.isEmpty then [] else [String.mk cur.reverse]
  | cur, c :: rest =>
      if c == ' ' then
        if cur.isEmpty then paramsGo [] rest
        else String.mk cur.reverse :: paramsGo [] rest
      else if cur.isEmpty && c == ':' then [String.mk rest]
      else paramsGo (c :: cur) rest

/-- Modelled from the spec: `IrcParser::parse` (the parser class belongs to
this repository but is not under `src/`).  Splits a framed line into the
prefix (text after a leading `:` up to the first space, when present), the
command token, and the space-separated parameters, the final parameter
optionally introduced by `:` and consumed verbatim to the end of the line. -/
def parseLine (l : List Char) : String × String × List String :=
  let split :=
    match l with
    | ':' :: t => (String.mk (takeToSpace t), dropSpaces (dropToSpace t))
    | _ => ("", l)
  let cmd := String.mk (takeToSpace split.2)
  let r2 := dropSpaces (dropToSpace split.2)
  (split.1, cmd, paramsGo [] r2)

/-- The stimuli driving one session: caller API invocations and transport
notifications (the Qt signals wired up in `IrcSession::setSocket`). -/
inductive SEvent where
  | callOpen
  | callSetHost (v : String)
  | callSetPort (v : Nat)
  | callSetUserName (v : String)
  | callSetNickName (v : String)
  | callSetRealName (v : String)
  | transportConnected (password : String)
  | dataReceived (bytes : List Char)
  | transportDisconnected
deriving DecidableEq

/-- One step of the session: dispatch an event to the corresponding
source handler. -/
def stepEv (st : IrcSessionState) : SEvent → IrcSessionState × StepOut
  | SEvent.callOpen => openSession st
  | SEvent.callSetHost v => ((setHost st v).1, emptyOut)
  | SEvent.callSetPort v => ((setPort st v).1, emptyOut)
  | SEvent.callSetUserName v => ((setUserName st v).1, emptyOut)
  | SEvent.callSetNickName v => (setNickName st v, emptyOut)
  | SEvent.callSetRealName v => ((setRealName st v).1, emptyOut)
  | SEvent.transportConnected password => connectedHandler st password
  | SEvent.dataReceived bytes =>
      let p := feed st.rawBuf bytes
      let outs := p.1.map (fun line =>
        let t := parseLine line
        processLine t.1 t.2.1 t.2.2)
      ({ st with rawBuf := p.2 },
        ⟨outs.foldr (fun o acc => o.1 ++ acc) [],
          outs.foldr (fun o acc => o.2 ++ acc) [], [], []⟩)
  | SEvent.transportDisconnected => disconnectedHandler st

/-- Run a sequence of events from a state, concatenating all outputs. -/
def runEvents (st : IrcSessionState) : List SEvent → IrcSessionState × StepOut
  | [] => (st, emptyOut)
  | e :: es =>
      let p := stepEv st e
      let q := runEvents p.1 es
      (q.1, appendOut p.2 q.2)

/-- Is an event the transport-connected notification? -/
def isTransportConnected : SEvent → Bool
  | SEvent.transportConnected _ => true
  | _ => false

/-- Is an event a data arrival? -/
def isDataReceived : SEvent → Bool
  | SEvent.dataReceived _ => true
  | _ => false

-- scratch checks of the machine
example :
    (runEvents initSession
      [SEvent.callSetUserName "u", SEvent.callSetNickName "n",
       SEvent.callSetRealName "r", SEvent.callOpen,
       SEvent.transportConnected ""]).1.mainBuffer = some 0 := by decide
example : (runEvents initSession [SEvent.callOpen]).1.mainBuffer = none := by decide
example : parseLine ":nick!u@h PRIVMSG #chan :hello world".data =
    ("nick!u@h", "PRIVMSG", ["#chan", "hello world"]) := by decide

/-! ### Helper lemmas for the claim theorems -/

theorem openSession_mainBuffer (st : IrcSessionState) :
    (openSession st).1.mainBuffer = st.mainBuffer := by
  unfold openSession reconnect
  repeat' split
  all_goals rfl

theorem stepEv_mainBuffer_preserved (st : IrcSessionState) (e : SEvent)
    (h : isTransportConnected e = false) :
    (stepEv st e).1.mainBuffer = st.mainBuffer := by
  cases e with
  | callOpen => exact openSession_mainBuffer st
  | callSetHost v => rfl
  | callSetPort v => rfl
  | callSetUserName v => rfl
  | callSetNickName v => rfl
  | callSetRealName v => rfl
  | transportConnected pw => simp [isTransportConnected] at h
  | dataReceived bytes => rfl
  | transportDisconnected => rfl

theorem runEvents_mainBuffer_none (trace : List SEvent) :
    ∀ st : IrcSessionState, st.mainBuffer = none →
      (∀ e ∈ trace, isTransportConnected e = false) →
      (runEvents st trace).1.mainBuffer = none := by
  induction trace with
  | nil => intro st h _; exact h
  | cons e es ih =>
    intro st h hall
    have hstep : (stepEv st e).1.mainBuffer = none := by
      rw [stepEv_mainBuffer_preserved st e (hall e (List.mem_cons_self e es))]
      exact h
    exact ih (stepEv st e).1 hstep (fun x hx => hall x (List.mem_cons_of_mem e hx))

theorem textualDispatch_no_numeric (cmd : String) (params : List String) (c : Nat) :
    (textualDispatch cmd params).1 ≠ some (MsgKind.numeric c) := by
  unfold textualDispatch
  by_cases h1 : cmd = "PING"
  · simp [h1]
  rw [if_neg h1]
  by_cases h2 : cmd = "JOIN"
  · simp [h2]
  rw [if_neg h2]
  by_cases h3 : cmd = "PART"
  · simp [h3]
  rw [if_neg h3]
  by_cases h4 : cmd = "TOPIC"
  · simp [h4]
  rw [if_neg h4]
  by_cases h5 : cmd = "NAMES"
  · simp [h5]
  rw [if_neg h5]
  by_cases h6 : cmd = "LIST"
  · simp [h6]
  rw [if_neg h6]
  by_cases h7 : cmd = "INVITE"
  · simp [h7]
  rw [if_neg h7]
  by_cases h8 : cmd = "KICK"
  · simp [h8]
  rw [if_neg h8]
  by_cases h9 : cmd = "MODE"
  · rw [if_pos h9]
    split <;> simp
  rw [if_neg h9]
  by_cases h10 : cmd = "PRIVMSG"
  · rw [if_pos h10]
    split <;> (try split) <;> simp
  rw [if_neg h10]
  by_cases h11 : cmd = "NOTICE"
  · rw [if_pos h11]
    split <;> simp
  rw [if_neg h11]
  by_cases h12 : cmd = "WHO"
  · simp [h12]
  rw [if_neg h12]
  by_cases h13 : cmd = "WHOIS"
  · simp [h13]
  rw [if_neg h13]
  by_cases h14 : cmd = "WHOWAS"
  · simp [h14]
  rw [if_neg h14]
  simp

theorem countConnected_processLine (pfx cmd : String) (params : List String) :
    countConnected (processLine pfx cmd params).1 =
      if isWelcomeLine (pfx, cmd, params) = true then 1 else 0 := by
  unfold processLine isWelcomeLine countConnected
  cases hv : qtToInt cmd with
  | some v =>
    by_cases hw : uintCast v = RPL_WELCOME
    · simp [hw, List.countP_cons, List.countP_nil]
    · simp [hw, List.countP_cons, List.countP_nil]
  | none =>
    cases ht : (textualDispatch cmd params).1 with
    | none => simp [ht, List.countP_nil]
    | some k => simp [ht, List.countP_cons, List.countP_nil]

/-! ### Claim theorems -/

/-- C1, counterexample: buffer registration is NOT idempotent under
case-insensitive keys.  `addBuffer "#Foo"` followed by `addBuffer "#foo"`
returns two distinct Buffer instances, stores two buffers under the same
lower-cased key, and emits no creation event at all (instead of exactly
one). -/
theorem c1_addBuffer_not_case_insensitive_idempotent :
    (addBuffer initSession "#Foo").2.1 ≠
        (addBuffer (addBuffer initSession "#Foo").1 "#foo").2.1 ∧
      lowerKey "#Foo" = lowerKey "#foo" ∧
      ((addBuffer (addBuffer initSession "#Foo").1 "#foo").1.buffers.countP
        (fun kv => lowerKey kv.1 == "#foo")) = 2 ∧
      (addBuffer initSession "#Foo").2.2 = [] ∧
      (addBuffer (addBuffer initSession "#Foo").1 "#foo").2.2 = [] := by
  decide

/-- C1, amended: `addBuffer(pattern)` always creates and returns a fresh
Buffer instance, registers it under the verbatim (case-sensitive) pattern key
in addition to any existing entries, and emits no creation event; in
particular two successive calls (with any patterns, case-variant or not)
return distinct Buffer instances. -/
theorem c1_addBuffer_always_fresh (st : IrcSessionState) (p q : String) :
    (addBuffer st p).2.1 = st.nextId ∧
      (addBuffer st p).1.buffers = (p, st.nextId) :: st.buffers ∧
      (addBuffer st p).2.2 = [] ∧
      (addBuffer (addBuffer st p).1 q).2.1 ≠ (addBuffer st p).2.1 := by
  refine ⟨rfl, rfl, rfl, ?_⟩
  show st.nextId + 1 ≠ st.nextId
  omega

/-- C2, counterexample: in the reachable state after configuring the session,
opening it, and receiving the transport-connected notification — with no data
(hence no welcome numeric) ever received and no `connected` signal emitted —
`mainBuffer()` is already non-null.  The main buffer is created by the
transport-connected handler, before registration completes. -/
theorem c2_mainBuffer_nonnull_before_welcome :
    ((runEvents initSession
        [SEvent.callSetUserName "u", SEvent.callSetNickName "n",
         SEvent.callSetRealName "r", SEvent.callOpen,
         SEvent.transportConnected ""]).1.mainBuffer = some 0) ∧
      (∀ e ∈ [SEvent.callSetUserName "u", SEvent.callSetNickName "n",
          SEvent.callSetRealName "r", SEvent.callOpen,
          SEvent.transportConnected ""], isDataReceived e = false) ∧
      countConnected (runEvents initSession
        [SEvent.callSetUserName "u", SEvent.callSetNickName "n",
         SEvent.callSetRealName "r", SEvent.callOpen,
         SEvent.transportConnected ""]).2.events = 0 := by
  decide

/-- C2, amended: the main status buffer (pattern `*`) is created by the
transport-connected handler, anew on every transport connection: after each
`transportConnected` event `mainBuffer()` is the freshly created buffer with
pattern `*`; and in every reachable state in which no transport-connected
event has occurred (in particular before any welcome numeric can arrive),
`mainBuffer()` is null. -/
theorem c2_mainBuffer_created_at_transport_connect :
    (∀ (st : IrcSessionState) (pw : String),
        (connectedHandler st pw).1.mainBuffer = some st.nextId ∧
          (connectedHandler st pw).1.allocated = (st.nextId, "*") :: st.allocated) ∧
      ∀ trace : List SEvent,
        (∀ e ∈ trace, isTransportConnected e = false) →
        (runEvents initSession trace).1.mainBuffer = none := by
  refine ⟨fun st pw => ⟨rfl, rfl⟩, fun trace h => ?_⟩
  exact runEvents_mainBuffer_none trace initSession rfl h

/-- Witness for the C2 amended theorem at concrete inputs. -/
theorem c2_mainBuffer_created_at_transport_connect_witness :
    (connectedHandler initSession "").1.mainBuffer = some 0 ∧
      (runEvents initSession [SEvent.callOpen]).1.mainBuffer = none :=
  ⟨(c2_mainBuffer_created_at_transport_connect.1 initSession "").1,
    c2_mainBuffer_created_at_transport_connect.2 [SEvent.callOpen] (by decide)⟩

/-- C3, counterexample: a sequence of processed lines containing the welcome
numeric twice produces TWO `connected` emissions, not one — the dispatcher
has no once-guard. -/
theorem c3_connected_emitted_twice :
    countWelcome [("srv", "001", ["n"]), ("srv", "001", ["n"])] = 2 ∧
      countConnected
        (processMany [("srv", "001", ["n"]), ("srv", "001", ["n"])]).1 = 2 := by
  decide

/-- C3, amended: the `connected` session event is signalled at EVERY
observation of the welcome numeric: over any sequence of processed lines the
number of `connected` emissions equals the number of welcome-numeric lines
(so `n` welcome numerics produce `n` emissions, not one). -/
theorem c3_connected_emitted_per_welcome (ls : List (String × String × List String)) :
    countConnected (processMany ls).1 = countWelcome ls := by
  induction ls with
  | nil => rfl
  | cons l ls ih =>
    rcases l with ⟨a, b, cs⟩
    show countConnected ((processLine a b cs).1 ++ (processMany ls).1) = _
    unfold countConnected countWelcome at *
    rw [List.countP_append, List.countP_cons]
    have hl := countConnected_processLine a b cs
    unfold countConnected at hl
    rw [hl, ih]
    omega

/-- C4, counterexample: framing is NOT chunk-boundary-invariant for arbitrary
byte streams.  The stream `"a\nb\r\n"` fed as `"a\n"` then `"b\r\n"` yields
the lines `["a", "b"]`, while fed in one call it yields the single line
`"a\nb"`. -/
theorem c4_framing_chunk_invariance_fails :
    concatChunks ["a\n".data, "b\r\n".data] = "a\nb\r\n".data ∧
      (feedAll [] ["a\n".data, "b\r\n".data]).1 = ["a".data, "b".data] ∧
      (feed [] "a\nb\r\n".data).1 = ["a\nb".data] ∧
      (feedAll [] ["a\n".data, "b\r\n".data]).1 ≠ (feed [] "a\nb\r\n".data).1 := by
  decide

/-- C4, amended: for every byte stream with no bare line feed (every `'\n'`
immediately preceded by `'\r'`, the RFC-compliant framing) and every way of
splitting it into consecutive chunks, feeding the chunks through successive
feed calls yields exactly the lines (same sequence, same order) of feeding
the whole concatenated stream in a single call, and the same final
accumulator. -/
theorem c4_framing_chunk_invariant_no_bare_lf (chunks : List (List Char))
    (h : noBareLF (concatChunks chunks) = true) :
    (feedAll [] chunks).1 = (feed [] (concatChunks chunks)).1 ∧
      (feedAll [] chunks).2 = (feed [] (concatChunks chunks)).2 :=
  feedAll_eq_feed_concat h

/-- Witness for the C4 amended theorem at a concrete chunking (a CRLF split
across the chunk boundary). -/
theorem c4_framing_chunk_invariant_no_bare_lf_witness :
    (feedAll [] ["PING x\r".data, "\nfoo\r\n".data]).1
        = (feed [] (concatChunks ["PING x\r".data, "\nfoo\r\n".data])).1 ∧
      (feedAll [] ["PING x\r".data, "\nfoo\r\n".data]).2
        = (feed [] (concatChunks ["PING x\r".data, "\nfoo\r\n".data])).2 :=
  c4_framing_chunk_invariant_no_bare_lf ["PING x\r".data, "\nfoo\r\n".data] (by decide)

/-- C5, counterexample: `"2147483648"` is a non-negative integer command
token (all decimal digits), yet the line is NOT classified as Numeric — it
overflows the 32-bit `QString::toInt` conversion, so no event at all is
emitted for it. -/
theorem c5_numeric_iff_nonneg_integer_fails :
    ("2147483648".data ≠ [] ∧ "2147483648".data.all Char.isDigit = true) ∧
      qtToInt "2147483648" = none ∧
      (processLine "srv" "2147483648" ["x"]).1 = [] := by
  decide

/-- C5, amended: a line is classified as Numeric if and only if its command
token parses under `QString::toInt` (optionally signed decimal within the
32-bit int range); in that case exactly one Numeric message event carrying
the value cast to unsigned is emitted (preceded by `connected` for the
welcome code) and no textual-command branch runs (no writes); otherwise no
Numeric message event is ever emitted. -/
theorem c5_numeric_classification (pfx cmd : String) (params : List String) :
    (∀ v, qtToInt cmd = some v →
        processLine pfx cmd params =
          ((if uintCast v = RPL_WELCOME then [SessionEv.connected] else []) ++
            [SessionEv.messageReceived (MsgKind.numeric (uintCast v))], [])) ∧
      (qtToInt cmd = none →
        ∀ c, SessionEv.messageReceived (MsgKind.numeric c) ∉ (processLine pfx cmd params).1) := by
  constructor
  · intro v hv
    simp [processLine, hv]
  · intro hn c
    simp only [processLine, hn]
    cases ht : (textualDispatch cmd params).1 with
    | none => simp [ht]
    | some k =>
      have hk : k ≠ MsgKind.numeric c := fun he =>
        textualDispatch_no_numeric cmd params c (he ▸ ht)
      simp [ht]
      exact fun he => hk he.symm

/-- Witness for the C5 amended theorem at concrete inputs. -/
theorem c5_numeric_classification_witness :
    processLine "srv" "001" ["n"] =
        ([SessionEv.connected, SessionEv.messageReceived (MsgKind.numeric 1)], []) ∧
      SessionEv.messageReceived (MsgKind.numeric 372) ∉
        (processLine "srv" "PRIVMSG" ["a", "b"]).1 := by
  constructor
  · exact ((c5_numeric_classification "srv" "001" ["n"]).1 1 (by decide)).trans (by decide)
  · exact (c5_numeric_classification "srv" "PRIVMSG" ["a", "b"]).2 (by decide) 372

/-- C6: a framed line whose command token is `PING` with argument `a`
produces exactly one outbound write `"PONG a\r\n"` (CRLF-terminated by
`IrcSessionPrivate::raw`), emits zero `messageReceived` events, and changes
no session state — a data-arrival step touches nothing but the raw line
accumulator. -/
theorem c6_ping_auto_reply (pfx : String) (params : List String) :
    processLine pfx "PING" params = ([], ["PONG " ++ params.getD 0 "" ++ "\r\n"]) ∧
      ∀ (st : IrcSessionState) (bytes : List Char),
        (stepEv st (SEvent.dataReceived bytes)).1 =
          { st with rawBuf := (feed st.rawBuf bytes).2 } := by
  constructor
  · have hn : qtToInt "PING" = none := by decide
    simp [processLine, hn, textualDispatch, pongLine]
  · intro st bytes
    rfl

/-- C7: opening a session whose user name, nick name or real name is empty is
refused synchronously: an error is reported at the call site, no connect is
initiated, nothing is written, no signal is emitted, and the session state is
unchanged. -/
theorem c7_open_refused_on_empty_config (st : IrcSessionState)
    (h : st.userName = "" ∨ st.nickName = "" ∨ st.realName = "") :
    (openSession st).1 = st ∧ (openSession st).2.connects = [] ∧
      (openSession st).2.writes = [] ∧ (openSession st).2.events = [] ∧
      (openSession st).2.errors ≠ [] := by
  unfold openSession
  rcases h with h | h | h
  · simp [h]
  · by_cases hu : st.userName = "" <;> simp [h, hu]
  · by_cases hu : st.userName = "" <;> by_cases hn : st.nickName = "" <;> simp [h, hu, hn]

/-- Witness for C7: the freshly constructed session (all names empty) refuses
to open. -/
theorem c7_open_refused_on_empty_config_witness :
    (openSession initSession).1 = initSession ∧
      (openSession initSession).2.connects = [] ∧
      (openSession initSession).2.writes = [] ∧
      (openSession initSession).2.events = [] ∧
      (openSession initSession).2.errors ≠ [] :=
  c7_open_refused_on_empty_config initSession (Or.inl rfl)

/-- C8: on transport-connected the registration handshake writes, in this
exact order: `PASS` first and only when the synchronously solicited password
is non-empty, then `NICK`, then `USER`; `NICK`/`USER` are never omitted. -/
theorem c8_registration_handshake_order (st : IrcSessionState) (password : String) :
    (password = "" →
        (connectedHandler st password).2.writes =
          ["NICK " ++ st.nickName ++ "\r\n",
           "USER " ++ st.userName ++ " unknown unknown :" ++ st.realName ++ "\r\n"]) ∧
      (password ≠ "" →
        (connectedHandler st password).2.writes =
          ["PASS " ++ password ++ "\r\n",
           "NICK " ++ st.nickName ++ "\r\n",
           "USER " ++ st.userName ++ " unknown unknown :" ++ st.realName ++ "\r\n"]) := by
  constructor <;> intro h <;> simp [connectedHandler, h]

/-- Witness for C8 at concrete inputs (empty and non-empty passwords). -/
theorem c8_registration_handshake_order_witness :
    (connectedHandler initSession "").2.writes =
        ["NICK \r\n", "USER  unknown unknown :\r\n"] ∧
      (connectedHandler initSession "secret").2.writes =
        ["PASS secret\r\n", "NICK \r\n", "USER  unknown unknown :\r\n"] := by
  constructor
  · exact ((c8_registration_handshake_order initSession "").1 rfl).trans (by decide)
  · exact ((c8_registration_handshake_order initSession "secret").2 (by decide)).trans
      (by decide)

/-- C9: after a framing pass (one `feed` of newly received bytes) the raw
line accumulator contains no complete terminated line: neither the `"\r\n"`
delimiter nor a bare `"\n"` occurs anywhere in it (in fact it contains no
`'\n'` at all), so only a partial, non-terminated trailing fragment remains
buffered. -/
theorem c9_accumulator_drained (st chunk : List Char) :
    indexOfSeq crlf (feed st chunk).2 = none ∧
      indexOfSeq [lf] (feed st chunk).2 = none ∧
      lf ∉ (feed st chunk).2 := by
  have h2 : indexOfSeq [lf] (feed st chunk).2 = none :=
    readLines_rem_no_delim lfd_ne_nil (readLines crlf (st ++ chunk)).2
  have h3 : lf ∉ (feed st chunk).2 := indexOfSeq_singleton_none.1 h2
  refine ⟨?_, h2, h3⟩
  cases hc : indexOfSeq crlf (feed st chunk).2 with
  | none => rfl
  | some i =>
    obtain ⟨u, v, huv, _⟩ := indexOfSeq_decomp hc
    rw [huv] at h3
    exact absurd (by simp [crlf]) h3

/-- C10: each of `setHost`, `setPort`, `setUserName`, `setRealName` stores
its argument unconditionally — also while connected, where only a warning is
produced (the returned flag, true exactly when `isConnected`) — and modifies
no other session field. -/
theorem c10_setters_assign_and_frame (st : IrcSessionState) (s : String) (p : Nat) :
    setHost st s = ({ st with host := s }, isConnectedB st) ∧
      setPort st p = ({ st with port := p }, isConnectedB st) ∧
      setUserName st s = ({ st with userName := s }, isConnectedB st) ∧
      setRealName st s = ({ st with realName := s }, isConnectedB st) :=
  ⟨rfl, rfl, rfl, rfl⟩

end IrcCore
